import Mathlib

/-!
Verification development for the paravon distributed key-value engine.

Shallow embedding of the core components referenced by the checked
properties: byte-string key codec, hybrid logical clock, HLC-versioned
storage, consistent-hash ring, partitioner, gossip membership table and
the framed transport protocol.  Byte strings are modelled as `List Nat`
(one element per byte); machine integers are `Nat` with explicit bounds
where Python's fixed-width `to_bytes` conversions matter; Python `None`
and raised exceptions are modelled with `Option`.
-/

namespace Paravon

/-- Byte strings: one `Nat` per byte. -/
abbrev Bytes := List Nat

/-- Big-endian encoding of `n` on `len` bytes, as in Python
`n.to_bytes(len, "big")` (the source relies on `n < 256 ^ len`). -/
def toBE : Nat → Nat → Bytes
  | 0, _ => []
  | l + 1, n => toBE l (n / 256) ++ [n % 256]

/-- Big-endian decoding, as in Python `int.from_bytes(bs, "big")`. -/
def fromBE (bs : Bytes) : Nat := bs.foldl (fun acc b => acc * 256 + b) 0

/-- Strict lexicographic order on byte strings: the byte-wise `memcmp`
order used by the storage backend for key iteration, with a proper
prefix ordered before its extensions. -/
def bytesLt : Bytes → Bytes → Bool
  | [], [] => false
  | [], _ :: _ => true
  | _ :: _, [] => false
  | a :: as, b :: bs =>
    if a < b then true else if b < a then false else bytesLt as bs

/-- Hybrid logical clock, `paravon/core/helpers/hlc.py`.  `node_id` is
kept as its UTF-8 byte encoding; Python compares `node_id` strings by
code point, which agrees with the lexicographic order of their UTF-8
encodings. -/
structure HLC where
  physical : Nat
  logical : Nat
  node_id : Bytes
  deriving DecidableEq, Repr, Inhabited

/-- The total order `(physical, logical, node_id)` generated by
`@dataclass(order=True)` on `HLC`. -/
def hlcLt (a b : HLC) : Bool :=
  decide (a.physical < b.physical) ||
    (decide (a.physical = b.physical) &&
      (decide (a.logical < b.logical) ||
        (decide (a.logical = b.logical) && bytesLt a.node_id b.node_id)))

/-- `HLC.encode`: 8-byte physical, 4-byte logical, UTF-8 node id. -/
def HLC.encode (h : HLC) : Bytes :=
  toBE 8 h.physical ++ toBE 4 h.logical ++ h.node_id

/-- `HLC.decode`: raises (here `none`) when fewer than 12 bytes. -/
def HLC.decode (bs : Bytes) : Option HLC :=
  if bs.length < 12 then none
  else some ⟨fromBE (bs.take 8), fromBE ((bs.drop 8).take 4), bs.drop 12⟩

/-- `HLC.tick_local(now_ms)`. -/
def HLC.tick_local (h : HLC) (now : Nat) : HLC :=
  if now > h.physical then ⟨now, 0, h.node_id⟩
  else ⟨h.physical, h.logical + 1, h.node_id⟩

/-- `HLC.tick_on_receive(remote, now_ms)`. -/
def HLC.tick_on_receive (h remote : HLC) (now : Nat) : HLC :=
  let pt := max (max h.physical remote.physical) now
  if pt = h.physical ∧ pt = remote.physical then
    ⟨pt, max h.logical remote.logical + 1, h.node_id⟩
  else if pt = h.physical ∧ pt > remote.physical then
    ⟨pt, h.logical + 1, h.node_id⟩
  else if pt = remote.physical ∧ pt > h.physical then
    ⟨pt, remote.logical + 1, h.node_id⟩
  else
    ⟨pt, 0, h.node_id⟩

namespace KeyCodec

/-- Two-byte big-endian length field (`HLC_LEN_SIZE = USER_LEN_SIZE = 2`). -/
def u16 (n : Nat) : Bytes := toBE 2 n

/-- `KeyCodec.data_prefix`: `keyspace || u16 user_len || user_key`. -/
def dataPref (ks k : Bytes) : Bytes := ks ++ u16 k.length ++ k

/-- `KeyCodec.index_prefix`: `keyspace || u16 hlc_len || hlc_bytes`. -/
def indexPref (ks hb : Bytes) : Bytes := ks ++ u16 hb.length ++ hb

/-- `KeyCodec.data_key`. -/
def data_key (ks k hb : Bytes) : Bytes := dataPref ks k ++ u16 hb.length ++ hb

/-- `KeyCodec.index_key`. -/
def index_key (ks k hb : Bytes) : Bytes := indexPref ks hb ++ u16 k.length ++ k

/-- `KeyCodec.parse_data_key`, returning `(hlc_bytes, user_key)` or
`none` when corrupted or truncated. -/
def parse_data_key (ks dk : Bytes) : Option (Bytes × Bytes) :=
  if ¬ ks.isPrefixOf dk then none
  else if dk.length < ks.length + 2 then none
  else
    let base := ks.length
    let userLen := fromBE ((dk.drop base).take 2)
    let pos := base + 2
    if dk.length < pos + userLen + 2 then none
    else
      let userKey := (dk.drop pos).take userLen
      let pos2 := pos + userLen
      let hlcLen := fromBE ((dk.drop pos2).take 2)
      let pos3 := pos2 + 2
      if dk.length < pos3 + hlcLen then none
      else some ((dk.drop pos3).take hlcLen, userKey)

/-- `KeyCodec.parse_index_key`, returning `(hlc_bytes, user_key)` or
`none` when corrupted or truncated. -/
def parse_index_key (ks ik : Bytes) : Option (Bytes × Bytes) :=
  if ¬ ks.isPrefixOf ik then none
  else if ik.length < ks.length + 2 then none
  else
    let base := ks.length
    let hlcLen := fromBE ((ik.drop base).take 2)
    let pos := base + 2
    if ik.length < pos + hlcLen + 2 then none
    else
      let hlcBytes := (ik.drop pos).take hlcLen
      let pos2 := pos + hlcLen
      let userLen := fromBE ((ik.drop pos2).take 2)
      let pos3 := pos2 + 2
      if ik.length < pos3 + userLen then none
      else some (hlcBytes, (ik.drop pos3).take userLen)

end KeyCodec

/-- One keyspace of the byte-oriented backend: association list from key
to value.  `put_many` upserts; iteration follows the lexicographic key
order (`bytesLt`), which the embedding realises by sorting. -/
def storePut (db : List (Bytes × Bytes)) (k v : Bytes) : List (Bytes × Bytes) :=
  if db.any (fun e => decide (e.1 = k)) then
    db.map (fun e => if e.1 = k then (k, v) else e)
  else db ++ [(k, v)]

/-- Entries whose key starts with `p`: the backend's prefix-restricted scan. -/
def filterPref (db : List (Bytes × Bytes)) (p : Bytes) : List (Bytes × Bytes) :=
  db.filter (fun e => p.isPrefixOf e.1)

/-- Insert into a list kept in strictly decreasing key order. -/
def insertDesc (e : Bytes × Bytes) : List (Bytes × Bytes) → List (Bytes × Bytes)
  | [] => [e]
  | f :: fs => if bytesLt f.1 e.1 then e :: f :: fs else f :: insertDesc e fs

/-- Sort entries by decreasing key: the backend's `reverse=True` scan order. -/
def sortDesc (db : List (Bytes × Bytes)) : List (Bytes × Bytes) :=
  db.foldr insertDesc []

/-- In-memory image of one `VersionedStorage`: the `data` and `index`
keyspaces of its backend, the persisted `meta["hlc"]` value, and the
in-memory clock. -/
structure Store where
  data : List (Bytes × Bytes)
  index : List (Bytes × Bytes)
  meta : Option HLC
  hlc : HLC
  deriving DecidableEq, Repr, Inhabited

namespace VStore

/-- `VersionedStorage._get_latest_data_key_val`: reverse scan of `data`
restricted to the user key's prefix, limit 1. -/
def getLatest (s : Store) (ks k : Bytes) : Option (Bytes × Bytes) :=
  (sortDesc (filterPref s.data (KeyCodec.dataPref ks k))).head?

/-- `VersionedStorage.get`: absent when no version exists or the latest
value is empty (TOMBSTONE = empty bytes). -/
def get (s : Store) (ks k : Bytes) : Option Bytes :=
  match getLatest s ks k with
  | some (_, v) => if v = [] then none else some v
  | none => none

/-- `VersionedStorage.put` by way of `_get_put_items` and the atomic
batch `_atomic_put_items`: tick the clock, write the data and index
entries and persist the new clock into `meta`. -/
def put (s : Store) (ks k v : Bytes) (now : Nat) : Store :=
  let h := s.hlc.tick_local now
  let hb := h.encode
  { s with
    hlc := h
    data := storePut s.data (KeyCodec.data_key ks k hb) v
    index := storePut s.index (KeyCodec.index_key ks k hb) []
    meta := some h }

/-- `VersionedStorage.delete`: a put of the TOMBSTONE (empty bytes). -/
def del (s : Store) (ks k : Bytes) (now : Nat) : Store := put s ks k [] now

/-- `VersionedStorage.apply_remote`.  A `none` result models a raised
exception: in the source, when a local version exists, line 96 binds
`local_hlc` to the raw hlc BYTES returned by `parse_data_key` (or fails
to unpack a `None` parse), and the LWW resolver then evaluates
`r_hlc > local_hlc` between an `HLC` and `bytes`, raising `TypeError`;
a too-short `r_hlc_bytes` makes `HLC.decode` raise `ValueError`.  When
no local version exists the winner is `r_hlc`, which differs from
`local_hlc = None`, so the remote triple is written atomically with the
DECODED REMOTE hlc persisted into `meta`. -/
def apply_remote (s : Store) (ks ik v : Bytes) (now : Nat) :
    Option (Store × Option HLC) :=
  match KeyCodec.parse_index_key ks ik with
  | none => some (s, none)
  | some (rb, uk) =>
    match HLC.decode rb with
    | none => none
    | some r =>
      let s1 : Store := { s with hlc := s.hlc.tick_on_receive r now }
      match getLatest s1 ks uk with
      | some _ => none
      | none =>
        some ({ s1 with
                  data := storePut s1.data (KeyCodec.data_key ks uk rb) v
                  index := storePut s1.index ik []
                  meta := some r },
              some r)

end VStore

/-- Stores reachable from an empty backend by local `put`/`delete`
operations on a fixed keyspace `ks`.  The bounds mirror Python's
fixed-width `to_bytes` calls in `HLC.encode` and `KeyCodec`, which
raise `OverflowError` outside them. -/
inductive Reach (ks : Bytes) : Store → Prop
  | init (node : Bytes) (p : Nat) (hp : p < 2 ^ 64)
      (hn : node.length + 12 < 65536) :
      Reach ks ⟨[], [], none, ⟨p, 0, node⟩⟩
  | put (s : Store) (k v : Bytes) (now : Nat) (hs : Reach ks s)
      (hk : k.length < 65536) (hnow : now < 2 ^ 64)
      (hl : (s.hlc.tick_local now).logical < 2 ^ 32) :
      Reach ks (VStore.put s ks k v now)

/-- Invariant of locally written stores: every data entry is a
well-formed versioned key for this keyspace, carrying this store's node
id and a clock no greater than the in-memory one. -/
def WF (ks : Bytes) (s : Store) : Prop :=
  s.hlc.physical < 2 ^ 64 ∧ s.hlc.logical < 2 ^ 32 ∧
  s.hlc.node_id.length + 12 < 65536 ∧
  ∀ e ∈ s.data, ∃ k h, k.length < 65536 ∧
    e.1 = KeyCodec.data_key ks k (HLC.encode h) ∧
    h.node_id = s.hlc.node_id ∧ h.physical < 2 ^ 64 ∧ h.logical < 2 ^ 32 ∧
    (h = s.hlc ∨ hlcLt h s.hlc = true)

/-- Virtual node: `(node_id, token)`, `paravon/core/space/vnode.py`. -/
structure VNode where
  node_id : String
  token : Nat
  deriving DecidableEq, Repr

/-- `Ring.find_successor` on the sorted vnode list: `bisect_right` by
token (on a token-sorted list this is the first index whose token is
strictly greater than `t`), wrapping to index 0 past the end.  `none`
models the `IndexError` raised on an empty ring. -/
def findSuccessor (vnodes : List VNode) (t : Nat) : Option VNode :=
  let idx := (vnodes.takeWhile (fun v => decide (v.token ≤ t))).length
  let idx2 := if idx = vnodes.length then 0 else idx
  vnodes[idx2]?

namespace Partitioner

/-- `Partitioner.step`: `(1 << 128) >> partition_shift`. -/
def step (shift : Nat) : Nat := (1 <<< 128) >>> shift

/-- `Partitioner.pid_for_hash`: `h >> (128 - partition_shift)`. -/
def pid_for_hash (shift h : Nat) : Nat := h >>> (128 - shift)

/-- `Partitioner.start_for_pid`. -/
def start_for_pid (shift pid : Nat) : Nat := pid * step shift

/-- `Partitioner.end_for_pid`. -/
def end_for_pid (shift pid : Nat) : Nat := (pid + 1) * step shift

end Partitioner

/-- `LogicalPartition`, with `end` renamed `end_` (Lean keyword). -/
structure LogicalPartition where
  pid : Nat
  start : Nat
  end_ : Nat
  deriving DecidableEq, Repr

/-- `LogicalPartition.contains`: `start < h <= end`. -/
def LogicalPartition.contains (p : LogicalPartition) (h : Nat) : Bool :=
  decide (p.start < h) && decide (h ≤ p.end_)

/-- `Partitioner.partition_for_hash`. -/
def Partitioner.partition_for_hash (shift h : Nat) : LogicalPartition :=
  let pid := pid_for_hash shift h
  ⟨pid, start_for_pid shift pid, end_for_pid shift pid⟩

/-- `NodePhase`, `paravon/core/models/membership.py`. -/
inductive NodePhase where
  | idle | joining | draining | ready | failed
  deriving DecidableEq, Repr

/-- `NodeSize` capacity classes. -/
inductive NodeSize where
  | XS | S | M | L | XL | XXL
  deriving DecidableEq, Repr

/-- `Membership` record exchanged by gossip. -/
structure Membership where
  epoch : Nat
  incarnation : Nat
  node_id : String
  size : NodeSize
  phase : NodePhase
  tokens : List Nat
  peer_address : String
  deriving DecidableEq, Repr

/-- `Membership.is_remove_phase`: phase in (idle, draining). -/
def Membership.is_remove_phase (m : Membership) : Bool :=
  decide (m.phase = NodePhase.idle) || decide (m.phase = NodePhase.draining)

/-- Modelled from the spec: `Membership.is_newer_than` is called by
`BucketTable._upsert_bucket` (table.py line 248) but is not defined
anywhere under the source tree.  Section 4.4 of the spec defines it as
`(a.epoch, a.incarnation) > (b.epoch, b.incarnation)` lexicographically,
comparing primarily by epoch; the further tie-breaks it leaves open
("as needed") are not modelled. -/
def Membership.is_newer_than (a b : Membership) : Bool :=
  decide (b.epoch < a.epoch) ||
    (decide (a.epoch = b.epoch) && decide (b.incarnation < a.incarnation))

/-- `MembershipChange`. -/
structure MembershipChange where
  before : Membership
  after : Membership
  deriving DecidableEq, Repr

/-- `MembershipDiff`. -/
structure MembershipDiff where
  added : List Membership
  removed : List Membership
  updated : List MembershipChange
  bucket_id : String
  deriving DecidableEq, Repr

/-- Association-list lookup keyed by node id (Python dict `.get`). -/
def lookupA (l : List (String × Membership)) (k : String) : Option Membership :=
  (l.find? (fun e => decide (e.1 = k))).map Prod.snd

/-- `Bucket.add_or_update`: dict assignment keyed by `m.node_id`
(replaces in place if present, otherwise appends). -/
def upsertA (l : List (String × Membership)) (m : Membership) :
    List (String × Membership) :=
  if l.any (fun e => decide (e.1 = m.node_id)) then
    l.map (fun e => if e.1 = m.node_id then (m.node_id, m) else e)
  else l ++ [(m.node_id, m)]

/-- Dict `.pop(k)` on a membership map. -/
def eraseA (l : List (String × Membership)) (k : String) :
    List (String × Membership) :=
  l.filter (fun e => decide (e.1 ≠ k))

/-- Dict assignment on the views index. -/
def viewsPut (vs : List (String × String)) (k v : String) :
    List (String × String) :=
  if vs.any (fun e => decide (e.1 = k)) then
    vs.map (fun e => if e.1 = k then (k, v) else e)
  else vs ++ [(k, v)]

/-- Dict `.pop(k, None)` on the views index. -/
def viewsErase (vs : List (String × String)) (k : String) :
    List (String × String) :=
  vs.filter (fun e => decide (e.1 ≠ k))

/-- State of a `BucketTable` together with its `NodeMetaManager`
collaborator: the bucket contents (checksums and dirty flags are not
modelled), the views index, the meta manager's cached local membership,
`_max_inc` and `_delta`.  `bucketFor` abstracts the deterministic
md5-based bucket assignment `BucketTable.bucket_for`. -/
structure TableState where
  buckets : String → List (String × Membership)
  views : List (String × String)
  localMeta : Membership
  maxInc : Nat
  delta : Nat
  bucketFor : String → String

/-- `BucketTable._track_incarnation`. -/
def trackIncarnation (s : TableState) (i : Nat) : TableState :=
  if i > s.maxInc then { s with maxInc := i } else s

/-- `BucketTable._refresh_local_membership`: rewrite the local record in
its bucket and views when it is already present there. -/
def refreshLocal (s : TableState) : TableState :=
  let lm := s.localMeta
  let bid := s.bucketFor lm.node_id
  if (lookupA (s.buckets bid) lm.node_id).isSome then
    { s with
      buckets := fun b => if b = bid then upsertA (s.buckets b) lm else s.buckets b
      views := viewsPut s.views lm.node_id bid }
  else s

/-- `BucketTable._ensure_incarnation` (meta manager `set_incarnation`
updates the cached local membership in place). -/
def ensureIncarnation (s : TableState) : TableState :=
  if s.localMeta.is_remove_phase then s
  else
    let target := max s.localMeta.incarnation s.maxInc + 1
    let s1 := { s with localMeta := { s.localMeta with incarnation := target } }
    let s2 := refreshLocal s1
    { s2 with maxInc := target }

/-- `BucketTable._logically_expired`. -/
def logicallyExpired (s : TableState) (m : Membership) : Bool :=
  decide (s.localMeta.incarnation > m.incarnation + s.delta)

/-- `BucketTable.remove`. -/
def removeNode (s : TableState) (nid : String) : TableState :=
  let bid := s.bucketFor nid
  if (lookupA (s.buckets bid) nid).isSome then
    let s1 := ensureIncarnation s
    { s1 with
      buckets := fun b => if b = bid then eraseA (s1.buckets b) nid else s1.buckets b
      views := viewsErase s1.views nid }
  else s

/-- `BucketTable._sync_incarnation` (caller guarantees a non-empty
remote list, so the fold computes Python's `max` of the incarnations). -/
def syncIncarnation (s : TableState) (ms : List Membership) : TableState :=
  if s.localMeta.is_remove_phase then s
  else
    let maxRemote := (ms.map Membership.incarnation).foldl max 0
    let s1 := trackIncarnation s maxRemote
    if maxRemote > s1.localMeta.incarnation then
      refreshLocal
        { s1 with localMeta := { s1.localMeta with incarnation := maxRemote } }
    else s1

/-- One iteration of the loop in `BucketTable._upsert_bucket`. -/
def upsertStep (bid : String)
    (acc : TableState × List Membership × List MembershipChange)
    (m : Membership) : TableState × List Membership × List MembershipChange :=
  let s0 := acc.1
  let added := acc.2.1
  let updated := acc.2.2
  let s := trackIncarnation s0 m.incarnation
  if logicallyExpired s m then
    if m.is_remove_phase then (removeNode s m.node_id, added, updated)
    else (s, added, updated)
  else
    match lookupA (s.buckets bid) m.node_id with
    | none =>
      ({ s with
          buckets := fun b => if b = bid then upsertA (s.buckets b) m else s.buckets b
          views := viewsPut s.views m.node_id bid },
        added ++ [m], updated)
    | some l =>
      if m.is_newer_than l then
        ({ s with
            buckets := fun b => if b = bid then upsertA (s.buckets b) m else s.buckets b
            views := viewsPut s.views m.node_id bid },
          added, updated ++ [⟨l, m⟩])
      else (s, added, updated)

/-- `BucketTable._upsert_bucket`. -/
def upsertBucket (s : TableState) (bid : String) (ms : List Membership) :
    TableState × List Membership × List MembershipChange :=
  ms.foldl (upsertStep bid) (s, [], [])

/-- One iteration of the loop in `BucketTable._purge_bucket`
(`_delete_membership` pops the record from the bucket and the views). -/
def purgeStep (bid : String) (acc : TableState × List Membership)
    (nid : String) : TableState × List Membership :=
  let s := acc.1
  let removed := acc.2
  match lookupA (s.buckets bid) nid with
  | none => (s, removed)
  | some l =>
    if ¬ l.is_remove_phase then (s, removed)
    else if logicallyExpired s l then
      ({ s with
          buckets := fun b => if b = bid then eraseA (s.buckets b) nid else s.buckets b
          views := viewsErase s.views nid },
        removed ++ [l])
    else (s, removed)

/-- `BucketTable._purge_bucket`.  Python iterates the set difference
`local_ids - remote_ids` in unspecified order; the embedding fixes the
bucket's insertion order, a deterministic refinement that visits the
same keys (each key is inspected at most once and only its own record
can be deleted, so the set of deletions does not depend on the order). -/
def purgeBucket (s : TableState) (bid : String) (ms : List Membership) :
    TableState × List Membership :=
  let remoteIds := ms.map Membership.node_id
  let localIds := ((s.buckets bid).map Prod.fst).filter
    (fun nid => decide (nid ∉ remoteIds))
  localIds.foldl (purgeStep bid) (s, [])

/-- `BucketTable.merge_bucket` (dirty marking is not modelled). -/
def mergeBucket (s : TableState) (bid : String) (ms : List Membership) :
    TableState × MembershipDiff :=
  let s1 := if ms.isEmpty then s else syncIncarnation s ms
  let r := upsertBucket s1 bid ms
  let p := purgeBucket r.1 bid ms
  (p.1, ⟨r.2.1, p.2, r.2.2, bid⟩)

/-- Per-connection framing state of `Protocol`: the rolling byte buffer,
the pending declared length, whether `transport.close()` was called, and
the payloads handed to the Streamer queue. -/
structure ProtoState where
  buffer : Bytes
  expected : Option Nat
  closed : Bool
  queue : List Bytes
  deriving DecidableEq, Repr

/-- The `while True` loop of `Protocol.data_received`, fuelled (each
header consumes four bytes, so `buffer.length + 4` steps suffice;
running out of fuel returns the state unchanged and is unreachable for
adequate fuel). -/
def ploop (maxBuf : Nat) : Nat → ProtoState → ProtoState
  | 0, st => st
  | fuel + 1, st =>
    match st.expected with
    | none =>
      if st.buffer.length < 4 then st
      else
        let declared := fromBE (st.buffer.take 4)
        let st1 : ProtoState :=
          { st with buffer := st.buffer.drop 4, expected := some declared }
        if declared > maxBuf then { st1 with closed := true }
        else ploop maxBuf fuel st1
    | some len =>
      if st.buffer.length < len then st
      else
        ploop maxBuf fuel
          { st with
            buffer := st.buffer.drop len
            expected := none
            queue := st.queue ++ [st.buffer.take len] }

/-- `Protocol.data_received(data)`.  Note that BOTH size checks compare
against `max_buffer_size` (protocol.py lines 101 and 115); the
configured `max_message_size` is never consulted. -/
def feedData (maxBuf : Nat) (st : ProtoState) (data : Bytes) : ProtoState :=
  let st1 : ProtoState := { st with buffer := st.buffer ++ data }
  if st1.buffer.length > maxBuf then { st1 with closed := true }
  else ploop maxBuf (st1.buffer.length + 4) st1

/-- Default limits of `ServerConfig` (models/config.py). -/
def maxMessageSizeDefault : Nat := 1048576

/-- Default `max_buffer_size` (4 MiB). -/
def maxBufferSizeDefault : Nat := 4194304

/-- Concrete scenario: keyspace `b"d"`. -/
def c2ks : Bytes := [100]

/-- Concrete scenario: user key `b"k"`. -/
def c2k : Bytes := [107]

/-- A remote HLC from node `"BB"` (two-byte node id, physical 5). -/
def c2r : HLC := ⟨5, 0, [66, 66]⟩

/-- The local HLC produced by the subsequent local put (node `"A"`,
one-byte node id, physical 10). -/
def c2new : HLC := ⟨10, 0, [65]⟩

/-- A fresh store owned by node `"A"`. -/
def c2s0 : Store := ⟨[], [], none, ⟨0, 0, [65]⟩⟩

/-- The remote index key carrying `c2r`. -/
def c2ik : Bytes := KeyCodec.index_key c2ks c2k c2r.encode

/-- The store after `apply_remote` of the remote version (value `[9]`). -/
def c2s1 : Store :=
  ((VStore.apply_remote c2s0 c2ks c2ik [9] 0).map Prod.fst).getD c2s0

/-- The store after a subsequent local `put` of value `[8]` at time 10. -/
def c2s2 : Store := VStore.put c2s1 c2ks c2k [8] 10

/-- The reverse scan of the data keyspace restricted to the user key's
prefix, with each yielded key parsed back to `(hlc_bytes, user_key)`. -/
def c2scan : List (Option (Bytes × Bytes)) :=
  (sortDesc (filterPref c2s2.data (KeyCodec.dataPref c2ks c2k))).map
    (fun e => KeyCodec.parse_data_key c2ks e.1)

/-- A fresh store owned by node `"A"` for the put/get/delete laws. -/
def c3s0 : Store := ⟨[], [], none, ⟨0, 0, [65]⟩⟩

/-- Concrete bucket member for node `"n1"` at epoch 3. -/
def c1mL : Membership :=
  ⟨3, 7, "n1", NodeSize.XS, NodePhase.ready, [], "a:1"⟩

/-- Remote record for node `"n1"` at the older epoch 2. -/
def c1mR : Membership :=
  ⟨2, 7, "n1", NodeSize.XS, NodePhase.ready, [], "a:1"⟩

/-- Local node membership cached by the meta manager (node `"L"`). -/
def c1lm : Membership :=
  ⟨4, 8, "L", NodeSize.XS, NodePhase.ready, [], "a:0"⟩

/-- Table whose bucket `"0"` holds exactly node `"n1"` at epoch 3. -/
def c1state : TableState :=
  ⟨fun b => if b = "0" then [("n1", c1mL)] else [],
    [("n1", "0")], c1lm, 8, 5, fun _ => "0"⟩

/-- Local membership with incarnation 10 for the expiry scenario. -/
def c4lm : Membership :=
  ⟨4, 10, "L", NodeSize.XS, NodePhase.ready, [], "a:0"⟩

/-- A logically expired remote record (incarnation 3 against local 10
with delta 5) that is NOT in a remove phase. -/
def c4m : Membership :=
  ⟨1, 3, "X", NodeSize.XS, NodePhase.ready, [], "a:2"⟩

/-- Table with empty buckets and local incarnation 10, delta 5. -/
def c4state : TableState :=
  ⟨fun _ => [], [], c4lm, 10, 5, fun _ => "0"⟩

/-- A fresh (not expired) remote record for the amended add law. -/
def c4madd : Membership :=
  ⟨1, 9, "X", NodeSize.XS, NodePhase.ready, [], "a:2"⟩

end Paravon

namespace Paravon

theorem toBE_length (l n : Nat) : (toBE l n).length = l := by
  induction l generalizing n with
  | zero => rfl
  | succ l ih => simp [toBE, ih]

theorem bytesLt_irrefl (xs : Bytes) : bytesLt xs xs = false := by
  induction xs with
  | nil => rfl
  | cons a as ih => simp [bytesLt, ih]

theorem bytesLt_asymm {xs ys : Bytes} (h : bytesLt xs ys = true) :
    bytesLt ys xs = false := by
  induction xs generalizing ys with
  | nil =>
    cases ys with
    | nil => rfl
    | cons b bs => rfl
  | cons a as ih =>
    cases ys with
    | nil => simp [bytesLt] at h
    | cons b bs =>
      simp only [bytesLt] at h ⊢
      rcases Nat.lt_trichotomy a b with hab | hab | hab
      · simp [Nat.lt_asymm hab, Nat.ne_of_lt hab, hab]
      · subst hab
        simp only [Nat.lt_irrefl, if_false] at h ⊢
        exact ih h
      · simp [hab, Nat.lt_asymm hab] at h

theorem bytesLt_trans {xs ys zs : Bytes} (h1 : bytesLt xs ys = true)
    (h2 : bytesLt ys zs = true) : bytesLt xs zs = true := by
  induction xs generalizing ys zs with
  | nil =>
    cases ys with
    | nil => exact absurd h1 (by simp [bytesLt])
    | cons b bs =>
      cases zs with
      | nil => exact absurd h2 (by simp [bytesLt])
      | cons c cs => rfl
  | cons a as ih =>
    cases ys with
    | nil => exact absurd h1 (by simp [bytesLt])
    | cons b bs =>
      cases zs with
      | nil => exact absurd h2 (by simp [bytesLt])
      | cons c cs =>
        simp only [bytesLt] at h1 h2 ⊢
        rcases Nat.lt_trichotomy a b with hab | hab | hab
        · rcases Nat.lt_trichotomy b c with hbc | hbc | hbc
          · simp [Nat.lt_trans hab hbc]
          · subst hbc; simp [hab]
          · simp [hbc, Nat.lt_asymm hbc] at h2
        · subst hab
          rcases Nat.lt_trichotomy a c with hac | hac | hac
          · simp [hac]
          · subst hac
            simp only [Nat.lt_irrefl, if_false] at h1 h2 ⊢
            exact ih h1 h2
          · simp [hac, Nat.lt_asymm hac] at h2
        · simp [hab, Nat.lt_asymm hab] at h1

theorem bytesLt_total {xs ys : Bytes} (h1 : bytesLt xs ys = false)
    (h2 : bytesLt ys xs = false) : xs = ys := by
  induction xs generalizing ys with
  | nil =>
    cases ys with
    | nil => rfl
    | cons b bs => exact absurd h1 (by simp [bytesLt])
  | cons a as ih =>
    cases ys with
    | nil => exact absurd h2 (by simp [bytesLt])
    | cons b bs =>
      simp only [bytesLt] at h1 h2
      rcases Nat.lt_trichotomy a b with hab | hab | hab
      · simp [hab] at h1
      · subst hab
        simp only [Nat.lt_irrefl, if_false] at h1 h2
        rw [ih h1 h2]
      · simp [hab, Nat.lt_asymm hab] at h2

theorem bytesLt_append (x y a b : Bytes) (h : x.length = y.length) :
    bytesLt (x ++ a) (y ++ b) =
      if x = y then bytesLt a b else bytesLt x y := by
  induction x generalizing y with
  | nil =>
    cases y with
    | nil => simp
    | cons v vs => simp at h
  | cons u us ih =>
    cases y with
    | nil => simp at h
    | cons v vs =>
      simp only [List.cons_append, bytesLt, List.cons.injEq]
      rcases Nat.lt_trichotomy u v with huv | huv | huv
      · simp [huv, Nat.ne_of_lt huv]
      · subst huv
        simp only [Nat.lt_irrefl, if_false, true_and, List.append_eq]
        by_cases hx : us = vs
        · subst hx
          rw [ih us rfl, if_pos rfl]
        · rw [ih vs (by simpa using h), if_neg hx]
      · simp [huv, Nat.lt_asymm huv, (Nat.ne_of_lt huv).symm]

theorem bytesLt_append_same (p a b : Bytes) :
    bytesLt (p ++ a) (p ++ b) = bytesLt a b := by
  rw [bytesLt_append p p a b rfl, if_pos rfl]

theorem toBE_inj {l a b : Nat} (ha : a < 256 ^ l) (hb : b < 256 ^ l)
    (h : toBE l a = toBE l b) : a = b := by
  induction l generalizing a b with
  | zero =>
    simp only [Nat.pow_zero, Nat.lt_one_iff] at ha hb
    omega
  | succ l ih =>
    have ha2 : a / 256 < 256 ^ l := by
      have hp : 256 ^ (l + 1) = 256 ^ l * 256 := by ring
      rw [hp] at ha
      omega
    have hb2 : b / 256 < 256 ^ l := by
      have hp : 256 ^ (l + 1) = 256 ^ l * 256 := by ring
      rw [hp] at hb
      omega
    simp only [toBE] at h
    have hlen : (toBE l (a / 256)).length = (toBE l (b / 256)).length := by
      simp [toBE_length]
    obtain ⟨h1, h2⟩ := List.append_inj h hlen
    have hd : a / 256 = b / 256 := ih ha2 hb2 h1
    have hm : a % 256 = b % 256 := by simpa using h2
    omega

theorem bytesLt_single (x y : Nat) : bytesLt [x] [y] = decide (x < y) := by
  simp only [bytesLt]
  rcases Nat.lt_trichotomy x y with hxy | hxy | hxy
  · simp [hxy]
  · subst hxy; simp
  · simp [hxy, Nat.lt_asymm hxy]

theorem bytesLt_toBE {l a b : Nat} (ha : a < 256 ^ l) (hb : b < 256 ^ l) :
    bytesLt (toBE l a) (toBE l b) = decide (a < b) := by
  induction l generalizing a b with
  | zero =>
    simp only [Nat.pow_zero, Nat.lt_one_iff] at ha hb
    subst ha; subst hb
    rfl
  | succ l ih =>
    have ha2 : a / 256 < 256 ^ l := by
      have hp : 256 ^ (l + 1) = 256 ^ l * 256 := by ring
      rw [hp] at ha
      omega
    have hb2 : b / 256 < 256 ^ l := by
      have hp : 256 ^ (l + 1) = 256 ^ l * 256 := by ring
      rw [hp] at hb
      omega
    simp only [toBE]
    rw [bytesLt_append _ _ _ _ (by simp [toBE_length])]
    by_cases hdiv : a / 256 = b / 256
    · rw [if_pos (by rw [hdiv])]
      rw [bytesLt_single]
      have : a % 256 < b % 256 ↔ a < b := by omega
      simp [this]
    · rw [if_neg (fun hEq => hdiv (toBE_inj ha2 hb2 hEq))]
      rw [ih ha2 hb2]
      have : a / 256 < b / 256 ↔ a < b := by omega
      simp [this]

theorem hlcLt_iff {a b : HLC} : hlcLt a b = true ↔
    (a.physical < b.physical ∨ (a.physical = b.physical ∧
      (a.logical < b.logical ∨ (a.logical = b.logical ∧
        bytesLt a.node_id b.node_id = true)))) := by
  simp [hlcLt]

theorem hlcLt_trans {a b c : HLC} (h1 : hlcLt a b = true)
    (h2 : hlcLt b c = true) : hlcLt a c = true := by
  rw [hlcLt_iff] at h1 h2 ⊢
  rcases h1 with h1 | ⟨e1, h1a⟩ <;> rcases h2 with h2 | ⟨e2, h2a⟩
  · exact Or.inl (by omega)
  · exact Or.inl (by omega)
  · exact Or.inl (by omega)
  · refine Or.inr ⟨by omega, ?_⟩
    rcases h1a with h1a | ⟨f1, h1b⟩ <;> rcases h2a with h2a | ⟨f2, h2b⟩
    · exact Or.inl (by omega)
    · exact Or.inl (by omega)
    · exact Or.inl (by omega)
    · exact Or.inr ⟨by omega, bytesLt_trans h1b h2b⟩

theorem hlcLt_irrefl (a : HLC) : hlcLt a a = false := by
  simp [hlcLt, bytesLt_irrefl]

theorem tickLocal_gt (h : HLC) (now : Nat) :
    hlcLt h (h.tick_local now) = true := by
  rw [hlcLt_iff]
  unfold HLC.tick_local
  by_cases hn : now > h.physical
  · rw [if_pos hn]
    exact Or.inl hn
  · rw [if_neg hn]
    exact Or.inr ⟨rfl, Or.inl (Nat.lt_succ_self _)⟩

theorem tickOnReceive_gt_self (h r : HLC) (now : Nat) :
    hlcLt h (h.tick_on_receive r now) = true := by
  rw [hlcLt_iff]
  dsimp only [HLC.tick_on_receive]
  split_ifs with h1 h2 h3 <;> dsimp only
  · exact Or.inr ⟨h1.1.symm, Or.inl (by omega)⟩
  · exact Or.inr ⟨h2.1.symm, Or.inl (by omega)⟩
  · exact Or.inl (by omega)
  · exact Or.inl (by omega)

theorem tickOnReceive_gt_remote (h r : HLC) (now : Nat) :
    hlcLt r (h.tick_on_receive r now) = true := by
  rw [hlcLt_iff]
  dsimp only [HLC.tick_on_receive]
  split_ifs with h1 h2 h3 <;> dsimp only
  · exact Or.inr ⟨h1.2.symm, Or.inl (by omega)⟩
  · exact Or.inl (by omega)
  · exact Or.inr ⟨h3.1.symm, Or.inl (by omega)⟩
  · exact Or.inl (by omega)

theorem fromBE_toBE {l n : Nat} (h : n < 256 ^ l) : fromBE (toBE l n) = n := by
  induction l generalizing n with
  | zero =>
    simp only [Nat.pow_zero, Nat.lt_one_iff] at h
    subst h; rfl
  | succ l ih =>
    have h2 : n / 256 < 256 ^ l := by
      have hp : 256 ^ (l + 1) = 256 ^ l * 256 := by ring
      rw [hp] at h
      omega
    simp only [toBE, fromBE, List.foldl_append]
    have : (toBE l (n / 256)).foldl (fun acc b => acc * 256 + b) 0 = n / 256 :=
      ih h2
    rw [this]
    simp only [List.foldl_cons, List.foldl_nil]
    omega

theorem takeWhile_eq_self_of_all {α : Type} {p : α → Bool} {l : List α}
    (h : ∀ a ∈ l, p a = true) : l.takeWhile p = l := by
  induction l with
  | nil => rfl
  | cons a as ih =>
    simp only [List.takeWhile_cons, h a (List.mem_cons_self a as), if_true]
    rw [ih (fun x hx => h x (List.mem_cons_of_mem a hx))]

theorem parse_data_key_roundtrip (ks k hb : Bytes) (hk : k.length < 65536)
    (hh : hb.length < 65536) :
    KeyCodec.parse_data_key ks (KeyCodec.data_key ks k hb) = some (hb, k) := by
  have hu1 : (toBE 2 k.length).length = 2 := toBE_length 2 _
  have hu2 : (toBE 2 hb.length).length = 2 := toBE_length 2 _
  have hassoc : KeyCodec.data_key ks k hb =
      ks ++ (toBE 2 k.length ++ (k ++ (toBE 2 hb.length ++ hb))) := by
    simp [KeyCodec.data_key, KeyCodec.dataPref, KeyCodec.u16]
  rw [hassoc]
  have hpre : ks.isPrefixOf
      (ks ++ (toBE 2 k.length ++ (k ++ (toBE 2 hb.length ++ hb)))) = true := by
    rw [List.isPrefixOf_iff_prefix]
    exact List.prefix_append _ _
  unfold KeyCodec.parse_data_key
  rw [if_neg (by simp [hpre])]
  rw [if_neg (by simp only [List.length_append, hu1, hu2]; omega)]
  dsimp only
  have s1 : ((ks ++ (toBE 2 k.length ++ (k ++ (toBE 2 hb.length ++ hb)))).drop
      ks.length).take 2 = toBE 2 k.length := by
    rw [List.drop_left]
    exact List.take_left' hu1
  rw [s1, fromBE_toBE hk]
  rw [if_neg (by simp only [List.length_append, hu1, hu2]; omega)]
  have s2 : (ks ++ (toBE 2 k.length ++ (k ++ (toBE 2 hb.length ++ hb)))).drop
      (ks.length + 2) = k ++ (toBE 2 hb.length ++ hb) := by
    rw [show ks ++ (toBE 2 k.length ++ (k ++ (toBE 2 hb.length ++ hb)))
        = (ks ++ toBE 2 k.length) ++ (k ++ (toBE 2 hb.length ++ hb)) by simp]
    exact List.drop_left' (by simp [hu1])
  rw [s2, List.take_left]
  have s3 : (ks ++ (toBE 2 k.length ++ (k ++ (toBE 2 hb.length ++ hb)))).drop
      (ks.length + 2 + k.length) = toBE 2 hb.length ++ hb := by
    rw [show ks ++ (toBE 2 k.length ++ (k ++ (toBE 2 hb.length ++ hb)))
        = ((ks ++ toBE 2 k.length) ++ k) ++ (toBE 2 hb.length ++ hb) by simp]
    exact List.drop_left' (by simp [hu1]; omega)
  rw [s3, List.take_left' hu2, fromBE_toBE hh]
  rw [if_neg (by simp only [List.length_append, hu1, hu2]; omega)]
  have s4 : (ks ++ (toBE 2 k.length ++ (k ++ (toBE 2 hb.length ++ hb)))).drop
      (ks.length + 2 + k.length + 2) = hb := by
    rw [show ks ++ (toBE 2 k.length ++ (k ++ (toBE 2 hb.length ++ hb)))
        = (((ks ++ toBE 2 k.length) ++ k) ++ toBE 2 hb.length) ++ hb by simp]
    exact List.drop_left' (by simp [hu1, hu2]; omega)
  rw [s4, List.take_length]

theorem parse_index_key_roundtrip (ks k hb : Bytes) (hk : k.length < 65536)
    (hh : hb.length < 65536) :
    KeyCodec.parse_index_key ks (KeyCodec.index_key ks k hb) = some (hb, k) := by
  have hu1 : (toBE 2 k.length).length = 2 := toBE_length 2 _
  have hu2 : (toBE 2 hb.length).length = 2 := toBE_length 2 _
  have hassoc : KeyCodec.index_key ks k hb =
      ks ++ (toBE 2 hb.length ++ (hb ++ (toBE 2 k.length ++ k))) := by
    simp [KeyCodec.index_key, KeyCodec.indexPref, KeyCodec.u16]
  rw [hassoc]
  have hpre : ks.isPrefixOf
      (ks ++ (toBE 2 hb.length ++ (hb ++ (toBE 2 k.length ++ k)))) = true := by
    rw [List.isPrefixOf_iff_prefix]
    exact List.prefix_append _ _
  unfold KeyCodec.parse_index_key
  rw [if_neg (by simp [hpre])]
  rw [if_neg (by simp only [List.length_append, hu1, hu2]; omega)]
  dsimp only
  have s1 : ((ks ++ (toBE 2 hb.length ++ (hb ++ (toBE 2 k.length ++ k)))).drop
      ks.length).take 2 = toBE 2 hb.length := by
    rw [List.drop_left]
    exact List.take_left' hu2
  rw [s1, fromBE_toBE hh]
  rw [if_neg (by simp only [List.length_append, hu1, hu2]; omega)]
  have s2 : (ks ++ (toBE 2 hb.length ++ (hb ++ (toBE 2 k.length ++ k)))).drop
      (ks.length + 2) = hb ++ (toBE 2 k.length ++ k) := by
    rw [show ks ++ (toBE 2 hb.length ++ (hb ++ (toBE 2 k.length ++ k)))
        = (ks ++ toBE 2 hb.length) ++ (hb ++ (toBE 2 k.length ++ k)) by simp]
    exact List.drop_left' (by simp [hu2])
  rw [s2, List.take_left]
  have s3 : (ks ++ (toBE 2 hb.length ++ (hb ++ (toBE 2 k.length ++ k)))).drop
      (ks.length + 2 + hb.length) = toBE 2 k.length ++ k := by
    rw [show ks ++ (toBE 2 hb.length ++ (hb ++ (toBE 2 k.length ++ k)))
        = ((ks ++ toBE 2 hb.length) ++ hb) ++ (toBE 2 k.length ++ k) by simp]
    exact List.drop_left' (by simp [hu2]; omega)
  rw [s3, List.take_left' hu1, fromBE_toBE hk]
  rw [if_neg (by simp only [List.length_append, hu1, hu2]; omega)]
  have s4 : (ks ++ (toBE 2 hb.length ++ (hb ++ (toBE 2 k.length ++ k)))).drop
      (ks.length + 2 + hb.length + 2) = k := by
    rw [show ks ++ (toBE 2 hb.length ++ (hb ++ (toBE 2 k.length ++ k)))
        = (((ks ++ toBE 2 hb.length) ++ hb) ++ toBE 2 k.length) ++ k by simp]
    exact List.drop_left' (by simp [hu1, hu2]; omega)
  rw [s4, List.take_length]

/-- C8: parsing a constructed data key or index key recovers the hlc
bytes and the user key, for every keyspace and for every user key and
hlc byte string whose lengths fit the two-byte length fields. -/
theorem codec_key_roundtrip (ks k hb : Bytes) (hk : k.length < 65536)
    (hh : hb.length < 65536) :
    KeyCodec.parse_data_key ks (KeyCodec.data_key ks k hb) = some (hb, k) ∧
      KeyCodec.parse_index_key ks (KeyCodec.index_key ks k hb) = some (hb, k) :=
  ⟨parse_data_key_roundtrip ks k hb hk hh,
    parse_index_key_roundtrip ks k hb hk hh⟩

/-- Witness for C8 at `keyspace = [0xAA]`, `k = [1, 2]`,
`hlc_bytes = [3, 4, 5]`. -/
theorem codec_key_roundtrip_witness :
    (([1, 2] : Bytes).length < 65536 ∧ ([3, 4, 5] : Bytes).length < 65536) ∧
      (KeyCodec.parse_data_key [170] (KeyCodec.data_key [170] [1, 2] [3, 4, 5]) =
          some ([3, 4, 5], [1, 2]) ∧
        KeyCodec.parse_index_key [170] (KeyCodec.index_key [170] [1, 2] [3, 4, 5]) =
          some ([3, 4, 5], [1, 2])) :=
  ⟨⟨by decide, by decide⟩,
    codec_key_roundtrip [170] [1, 2] [3, 4, 5] (by decide) (by decide)⟩

theorem encode_lt_eq_hlcLt {h1 h2 : HLC} (hp1 : h1.physical < 2 ^ 64)
    (hl1 : h1.logical < 2 ^ 32) (hp2 : h2.physical < 2 ^ 64)
    (hl2 : h2.logical < 2 ^ 32) :
    bytesLt h1.encode h2.encode = hlcLt h1 h2 := by
  have e8 : (256 : Nat) ^ 8 = 2 ^ 64 := by norm_num
  have e4 : (256 : Nat) ^ 4 = 2 ^ 32 := by norm_num
  have hp1a : h1.physical < 256 ^ 8 := by omega
  have hp2a : h2.physical < 256 ^ 8 := by omega
  have hl1a : h1.logical < 256 ^ 4 := by omega
  have hl2a : h2.logical < 256 ^ 4 := by omega
  unfold HLC.encode
  rw [show toBE 8 h1.physical ++ toBE 4 h1.logical ++ h1.node_id
      = toBE 8 h1.physical ++ (toBE 4 h1.logical ++ h1.node_id) by simp]
  rw [show toBE 8 h2.physical ++ toBE 4 h2.logical ++ h2.node_id
      = toBE 8 h2.physical ++ (toBE 4 h2.logical ++ h2.node_id) by simp]
  rw [bytesLt_append _ _ _ _ (by simp [toBE_length])]
  by_cases hp : h1.physical = h2.physical
  · rw [if_pos (by rw [hp])]
    rw [bytesLt_append _ _ _ _ (by simp [toBE_length])]
    by_cases hl : h1.logical = h2.logical
    · rw [if_pos (by rw [hl])]
      simp [hlcLt, hp, hl]
    · rw [if_neg (fun hEq => hl (toBE_inj hl1a hl2a hEq))]
      rw [bytesLt_toBE hl1a hl2a]
      simp [hlcLt, hp, hl]
  · rw [if_neg (fun hEq => hp (toBE_inj hp1a hp2a hEq))]
    rw [bytesLt_toBE hp1a hp2a]
    simp [hlcLt, hp]

theorem data_key_order_eq_hlc_order (ks k : Bytes) {h1 h2 : HLC}
    (hp1 : h1.physical < 2 ^ 64) (hl1 : h1.logical < 2 ^ 32)
    (hp2 : h2.physical < 2 ^ 64) (hl2 : h2.logical < 2 ^ 32)
    (hn : h1.node_id.length = h2.node_id.length) :
    bytesLt (KeyCodec.data_key ks k h1.encode) (KeyCodec.data_key ks k h2.encode)
      = hlcLt h1 h2 := by
  have hlen : h1.encode.length = h2.encode.length := by
    simp [HLC.encode, toBE_length, hn]
  unfold KeyCodec.data_key
  rw [show KeyCodec.u16 h1.encode.length = KeyCodec.u16 h2.encode.length by
    rw [hlen]]
  rw [show KeyCodec.dataPref ks k ++ KeyCodec.u16 h2.encode.length ++ h1.encode
      = (KeyCodec.dataPref ks k ++ KeyCodec.u16 h2.encode.length) ++ h1.encode
      by simp]
  rw [show KeyCodec.dataPref ks k ++ KeyCodec.u16 h2.encode.length ++ h2.encode
      = (KeyCodec.dataPref ks k ++ KeyCodec.u16 h2.encode.length) ++ h2.encode
      by simp]
  rw [bytesLt_append_same]
  exact encode_lt_eq_hlcLt hp1 hl1 hp2 hl2

theorem sortDesc_cons (g : Bytes × Bytes) (gs : List (Bytes × Bytes)) :
    sortDesc (g :: gs) = insertDesc g (sortDesc gs) := rfl

theorem mem_insertDesc {e f : Bytes × Bytes} {l : List (Bytes × Bytes)} :
    f ∈ insertDesc e l ↔ f = e ∨ f ∈ l := by
  induction l with
  | nil => simp [insertDesc]
  | cons g gs ih =>
    simp only [insertDesc]
    cases hg : bytesLt g.1 e.1
    · rw [if_neg (by simp [hg])]
      simp only [List.mem_cons, ih]
      tauto
    · rw [if_pos (by simp [hg])]
      simp only [List.mem_cons]

theorem mem_sortDesc {f : Bytes × Bytes} {l : List (Bytes × Bytes)} :
    f ∈ sortDesc l ↔ f ∈ l := by
  induction l with
  | nil => exact Iff.rfl
  | cons g gs ih =>
    rw [sortDesc_cons]
    simp only [mem_insertDesc, ih, List.mem_cons]

theorem head_sortDesc_max {l : List (Bytes × Bytes)} {e : Bytes × Bytes}
    (he : e ∈ l) (hmax : ∀ f ∈ l, f = e ∨ bytesLt f.1 e.1 = true) :
    (sortDesc l).head? = some e := by
  induction l with
  | nil => cases he
  | cons g gs ih =>
    rw [sortDesc_cons]
    rcases List.mem_cons.1 he with he1 | he2
    · subst he1
      cases hsd : sortDesc gs with
      | nil => rfl
      | cons f r =>
        have hf : f ∈ gs := mem_sortDesc.1 (hsd ▸ List.mem_cons_self f r)
        rcases hmax f (List.mem_cons_of_mem _ hf) with hfe | hflt
        · subst hfe
          simp [insertDesc, bytesLt_irrefl]
        · simp [insertDesc, hflt]
    · have ihh : (sortDesc gs).head? = some e :=
        ih he2 (fun f hf => hmax f (List.mem_cons_of_mem _ hf))
      cases hsd : sortDesc gs with
      | nil => rw [hsd] at ihh; cases ihh
      | cons f r =>
        rw [hsd] at ihh
        have hfe : f = e := by simpa using ihh
        subst hfe
        rcases hmax g (List.mem_cons_self g gs) with hge | hglt
        · subst hge
          simp [insertDesc, bytesLt_irrefl]
        · simp [insertDesc, bytesLt_asymm hglt]

theorem mem_storePut {db : List (Bytes × Bytes)} {K v : Bytes}
    {e : Bytes × Bytes} (h : e ∈ storePut db K v) : e ∈ db ∨ e = (K, v) := by
  unfold storePut at h
  split_ifs at h with hany
  · rcases List.mem_map.1 h with ⟨x, hx, hxe⟩
    by_cases hk : x.1 = K
    · right; rw [← hxe]; simp [hk]
    · left; rw [← hxe]; simpa [hk] using hx
  · rcases List.mem_append.1 h with h1 | h2
    · exact Or.inl h1
    · exact Or.inr (by simpa using h2)

theorem storePut_fresh {db : List (Bytes × Bytes)} {K v : Bytes}
    (h : ∀ e ∈ db, e.1 ≠ K) : storePut db K v = db ++ [(K, v)] := by
  have hany : db.any (fun e => decide (e.1 = K)) = false := by
    rw [List.any_eq_false]
    intro x hx
    simp only [decide_eq_true_eq]
    exact h x hx
  unfold storePut
  simp [hany]

theorem tickLocal_node (h : HLC) (now : Nat) :
    (h.tick_local now).node_id = h.node_id := by
  unfold HLC.tick_local
  split_ifs <;> rfl

theorem tickLocal_physical_lt {h : HLC} {now : Nat}
    (hp : h.physical < 2 ^ 64) (hnow : now < 2 ^ 64) :
    (h.tick_local now).physical < 2 ^ 64 := by
  unfold HLC.tick_local
  split_ifs <;> dsimp only <;> omega

theorem dataPref_prefix_impl_same_key {ks k k0 b0 : Bytes}
    (hk : k.length < 65536) (hk0 : k0.length < 65536)
    (hpre : (KeyCodec.dataPref ks k).isPrefixOf
      (KeyCodec.data_key ks k0 b0) = true) : k0 = k := by
  rw [List.isPrefixOf_iff_prefix] at hpre
  have hre : KeyCodec.dataPref ks k = ks ++ (toBE 2 k.length ++ k) := by
    simp [KeyCodec.dataPref, KeyCodec.u16]
  have hre2 : KeyCodec.data_key ks k0 b0
      = ks ++ (toBE 2 k0.length ++ (k0 ++ (toBE 2 b0.length ++ b0))) := by
    simp [KeyCodec.data_key, KeyCodec.dataPref, KeyCodec.u16]
  rw [hre, hre2, List.prefix_append_right_inj] at hpre
  have htake := (List.prefix_iff_eq_take.1 hpre).symm
  have hlen1 : (toBE 2 k.length ++ k).length = 2 + k.length := by
    simp [toBE_length]
  have hlen0 : (toBE 2 k0.length).length = 2 := toBE_length 2 _
  rw [hlen1] at htake
  rw [show (2 : Nat) + k.length = (toBE 2 k0.length).length + k.length by
    rw [hlen0]] at htake
  rw [List.take_append] at htake
  have hinj := List.append_inj htake.symm (by simp [toBE_length])
  have hkk : k.length = k0.length := toBE_inj hk hk0 hinj.1
  have htk : k = (k0 ++ (toBE 2 b0.length ++ b0)).take k.length := hinj.2
  rw [hkk, List.take_left] at htk
  exact htk.symm

theorem dataPref_prefix_data_key (ks k hb : Bytes) :
    (KeyCodec.dataPref ks k).isPrefixOf (KeyCodec.data_key ks k hb) = true := by
  rw [List.isPrefixOf_iff_prefix]
  unfold KeyCodec.data_key
  rw [List.append_assoc]
  exact List.prefix_append _ _

/-- C7: `tick_local` and `tick_on_receive` return a clock strictly
greater than the previous one in the total order
`(physical, logical, node_id)`, for every previous clock, remote clock
and wall-clock reading. -/
theorem hlc_tick_strictly_increases (h r : HLC) (now : Nat) :
    hlcLt h (h.tick_local now) = true ∧
      hlcLt h (h.tick_on_receive r now) = true :=
  ⟨tickLocal_gt h now, tickOnReceive_gt_self h r now⟩

/-- C6: on a non-empty ring, `find_successor` returns an element of the
ring, and whenever the token is at least every token present it returns
the vnode at index 0. -/
theorem ring_find_successor_mem_and_wrap (l : List VNode) (t : Nat)
    (hne : l ≠ []) :
    (∃ v, findSuccessor l t = some v ∧ v ∈ l) ∧
      ((∀ v ∈ l, v.token ≤ t) → findSuccessor l t = l[0]?) := by
  have hpos : 0 < l.length := List.length_pos.2 hne
  constructor
  · dsimp only [findSuccessor]
    by_cases hidx : (l.takeWhile (fun v => decide (v.token ≤ t))).length = l.length
    · rw [if_pos hidx]
      exact ⟨l[0], List.getElem?_eq_getElem hpos, List.getElem_mem hpos⟩
    · rw [if_neg hidx]
      have hlt : (l.takeWhile (fun v => decide (v.token ≤ t))).length < l.length :=
        Nat.lt_of_le_of_ne (l.takeWhile_sublist _).length_le hidx
      exact ⟨l[(l.takeWhile (fun v => decide (v.token ≤ t))).length],
        List.getElem?_eq_getElem hlt, List.getElem_mem hlt⟩
  · intro hall
    dsimp only [findSuccessor]
    rw [takeWhile_eq_self_of_all (fun v hv => by simpa using hall v hv), if_pos rfl]

/-- C10: a hash that is an exact multiple of the partition step is NOT
contained in the partition returned for it (it equals the partition's
start, which the half-open interval `(start, end]` excludes), while any
other hash is contained in its partition. -/
theorem partitioner_contains_boundary (shift h : Nat) (hs : shift ≤ 128)
    (hh : h < 2 ^ 128) :
    (h % Partitioner.step shift = 0 →
      (Partitioner.partition_for_hash shift h).contains h = false ∧
        (Partitioner.partition_for_hash shift h).start = h) ∧
    (h % Partitioner.step shift ≠ 0 →
      (Partitioner.partition_for_hash shift h).contains h = true) := by
  have hstep : Partitioner.step shift = 2 ^ (128 - shift) := by
    unfold Partitioner.step
    rw [Nat.shiftLeft_eq, Nat.shiftRight_eq_div_pow, one_mul]
    exact Nat.pow_div hs (by norm_num)
  have hpid : Partitioner.pid_for_hash shift h = h / Partitioner.step shift := by
    unfold Partitioner.pid_for_hash
    rw [Nat.shiftRight_eq_div_pow, hstep]
  have hpos : 0 < Partitioner.step shift := by
    rw [hstep]; exact Nat.pos_pow_of_pos _ (by norm_num)
  have hdm : h / Partitioner.step shift * Partitioner.step shift +
      h % Partitioner.step shift = h := Nat.div_add_mod' h _
  have hsucc : (h / Partitioner.step shift + 1) * Partitioner.step shift =
      h / Partitioner.step shift * Partitioner.step shift +
        Partitioner.step shift := Nat.succ_mul _ _
  have hmlt : h % Partitioner.step shift < Partitioner.step shift :=
    Nat.mod_lt h hpos
  constructor
  · intro hr
    dsimp only [Partitioner.partition_for_hash, LogicalPartition.contains,
      Partitioner.start_for_pid, Partitioner.end_for_pid]
    rw [hpid]
    constructor
    · have hnlt : ¬ (h / Partitioner.step shift * Partitioner.step shift < h) := by
        omega
      simp [hnlt]
    · omega
  · intro hr
    dsimp only [Partitioner.partition_for_hash, LogicalPartition.contains,
      Partitioner.start_for_pid, Partitioner.end_for_pid]
    rw [hpid]
    have h1 : h / Partitioner.step shift * Partitioner.step shift < h := by
      omega
    have h2 : h ≤ (h / Partitioner.step shift + 1) * Partitioner.step shift := by
      omega
    simp [h1, h2]

/-- Witness for C6 at the one-vnode ring `[("A", 5)]` and token 7. -/
theorem ring_find_successor_witness :
    ([(⟨"A", 5⟩ : VNode)] ≠ []) ∧
      ((∃ v, findSuccessor [(⟨"A", 5⟩ : VNode)] 7 = some v ∧
          v ∈ [(⟨"A", 5⟩ : VNode)]) ∧
        ((∀ v ∈ [(⟨"A", 5⟩ : VNode)], v.token ≤ 7) →
          findSuccessor [(⟨"A", 5⟩ : VNode)] 7 = [(⟨"A", 5⟩ : VNode)][0]?)) :=
  ⟨by decide, ring_find_successor_mem_and_wrap [⟨"A", 5⟩] 7 (by decide)⟩

/-- Witness for C10 at `shift = 4`, `h = 0` (a step multiple) and
`h = 1` (not a multiple). -/
theorem partitioner_contains_witness :
    (4 ≤ 128 ∧ (0 : Nat) < 2 ^ 128 ∧ (1 : Nat) < 2 ^ 128) ∧
      ((Partitioner.partition_for_hash 4 0).contains 0 = false ∧
        (Partitioner.partition_for_hash 4 0).start = 0) ∧
      (Partitioner.partition_for_hash 4 1).contains 1 = true :=
  ⟨⟨by decide, by decide, by decide⟩,
    (partitioner_contains_boundary 4 0 (by decide) (by decide)).1 (by decide),
    (partitioner_contains_boundary 4 1 (by decide) (by decide)).2 (by decide)⟩



theorem put_data (s : Store) (ks k v : Bytes) (now : Nat) :
    (VStore.put s ks k v now).data
      = storePut s.data (KeyCodec.data_key ks k (s.hlc.tick_local now).encode) v :=
  rfl

theorem put_hlc (s : Store) (ks k v : Bytes) (now : Nat) :
    (VStore.put s ks k v now).hlc = s.hlc.tick_local now := rfl

theorem put_meta (s : Store) (ks k v : Bytes) (now : Nat) :
    (VStore.put s ks k v now).meta = some (s.hlc.tick_local now) := rfl

theorem WF_put {ks : Bytes} {s : Store} (hwf : WF ks s) {k v : Bytes}
    {now : Nat} (hk : k.length < 65536) (hnow : now < 2 ^ 64)
    (hl : (s.hlc.tick_local now).logical < 2 ^ 32) :
    WF ks (VStore.put s ks k v now) := by
  obtain ⟨hp, hlg, hnd, hdata⟩ := hwf
  have hnode := tickLocal_node s.hlc now
  refine ⟨?_, ?_, ?_, ?_⟩
  · rw [put_hlc]
    exact tickLocal_physical_lt hp hnow
  · rw [put_hlc]
    exact hl
  · rw [put_hlc, hnode]
    exact hnd
  · intro e he
    rw [put_data] at he
    rcases mem_storePut he with hold | hnew
    · obtain ⟨k0, h0, hk0, hkey, hnode0, hp0, hl0, hle⟩ := hdata e hold
      refine ⟨k0, h0, hk0, hkey, ?_, hp0, hl0, Or.inr ?_⟩
      · rw [put_hlc, hnode]
        exact hnode0
      · rw [put_hlc]
        rcases hle with heq | hlt
        · rw [heq]
          exact tickLocal_gt _ _
        · exact hlcLt_trans hlt (tickLocal_gt _ _)
    · refine ⟨k, s.hlc.tick_local now, hk, ?_, ?_, ?_, ?_, Or.inl ?_⟩
      · rw [hnew]
      · rw [put_hlc]
      · exact tickLocal_physical_lt hp hnow
      · exact hl
      · rw [put_hlc]

theorem reach_WF {ks : Bytes} {s : Store} (h : Reach ks s) : WF ks s := by
  induction h with
  | init node p hp hn =>
    refine ⟨hp, by norm_num, hn, ?_⟩
    intro e he
    cases he
  | put s k v now hs hk hnow hl ih => exact WF_put ih hk hnow hl

theorem get_after_put {ks : Bytes} {s : Store} (hwf : WF ks s) (k v : Bytes)
    (hk : k.length < 65536) (now : Nat) (hnow : now < 2 ^ 64)
    (hl : (s.hlc.tick_local now).logical < 2 ^ 32) :
    VStore.get (VStore.put s ks k v now) ks k
      = if v = [] then none else some v := by
  obtain ⟨hp, hlg, hnd, hdata⟩ := hwf
  have hnewp : (s.hlc.tick_local now).physical < 2 ^ 64 :=
    tickLocal_physical_lt hp hnow
  have hnewn : (s.hlc.tick_local now).node_id = s.hlc.node_id :=
    tickLocal_node s.hlc now
  have hkey_lt : ∀ e ∈ s.data, (KeyCodec.dataPref ks k).isPrefixOf e.1 = true →
      bytesLt e.1 (KeyCodec.data_key ks k (s.hlc.tick_local now).encode)
        = true := by
    intro e he hpre
    obtain ⟨k0, h0, hk0, hkey, hnode0, hp0, hl0, hle⟩ := hdata e he
    rw [hkey] at hpre ⊢
    have hk0k : k0 = k := dataPref_prefix_impl_same_key hk hk0 hpre
    subst hk0k
    rw [data_key_order_eq_hlc_order ks k0 hp0 hl0 hnewp hl
      (by rw [hnode0, hnewn])]
    rcases hle with heq | hlt
    · rw [heq]
      exact tickLocal_gt _ _
    · exact hlcLt_trans hlt (tickLocal_gt _ _)
  have hfresh : ∀ e ∈ s.data,
      e.1 ≠ KeyCodec.data_key ks k (s.hlc.tick_local now).encode := by
    intro e he heq
    have hpre : (KeyCodec.dataPref ks k).isPrefixOf e.1 = true := by
      rw [heq]
      exact dataPref_prefix_data_key ks k _
    have hcontra := hkey_lt e he hpre
    rw [heq, bytesLt_irrefl] at hcontra
    cases hcontra
  have hgl : VStore.getLatest (VStore.put s ks k v now) ks k
      = some (KeyCodec.data_key ks k (s.hlc.tick_local now).encode, v) := by
    rw [VStore.getLatest, put_data, storePut_fresh hfresh]
    rw [show filterPref
        (s.data ++ [(KeyCodec.data_key ks k (s.hlc.tick_local now).encode, v)])
        (KeyCodec.dataPref ks k)
        = filterPref s.data (KeyCodec.dataPref ks k)
            ++ [(KeyCodec.data_key ks k (s.hlc.tick_local now).encode, v)] by
      simp [filterPref, List.filter_append, dataPref_prefix_data_key]]
    apply head_sortDesc_max
    · simp
    · intro f hf
      rcases List.mem_append.1 hf with hf1 | hf2
      · right
        have hfs : f ∈ s.data := (List.mem_filter.1 hf1).1
        have hfp : (KeyCodec.dataPref ks k).isPrefixOf f.1 = true := by
          simpa using (List.mem_filter.1 hf1).2
        exact hkey_lt f hfs hfp
      · left
        simpa using hf2
  rw [VStore.get, hgl]

/-- C3 (amended): in any store reachable by local operations on its
keyspace, a put of a NON-EMPTY value is observed by get, the second of
two puts wins, and get after delete is absent.  (A put of the empty
value is indistinguishable from a delete, since TOMBSTONE is the empty
byte string.) -/
theorem storage_put_get_delete_laws {ks : Bytes} {s : Store}
    (hr : Reach ks s) (k v v1 v2 : Bytes) (hk : k.length < 65536)
    (now now1 now2 : Nat) (hnow : now < 2 ^ 64) (hnow1 : now1 < 2 ^ 64)
    (hnow2 : now2 < 2 ^ 64)
    (hl : (s.hlc.tick_local now).logical < 2 ^ 32)
    (hl1 : (s.hlc.tick_local now1).logical < 2 ^ 32)
    (hl2 : ((VStore.put s ks k v1 now1).hlc.tick_local now2).logical < 2 ^ 32) :
    (v ≠ [] → VStore.get (VStore.put s ks k v now) ks k = some v) ∧
      (v2 ≠ [] →
        VStore.get (VStore.put (VStore.put s ks k v1 now1) ks k v2 now2) ks k
          = some v2) ∧
      VStore.get (VStore.del s ks k now) ks k = none := by
  have hwf := reach_WF hr
  refine ⟨?_, ?_, ?_⟩
  · intro hv
    rw [get_after_put hwf k v hk now hnow hl, if_neg hv]
  · intro hv
    have hr1 : Reach ks (VStore.put s ks k v1 now1) :=
      Reach.put s k v1 now1 hr hk hnow1 hl1
    rw [get_after_put (reach_WF hr1) k v2 hk now2 hnow2 hl2, if_neg hv]
  · rw [VStore.del, get_after_put hwf k [] hk now hnow hl, if_pos rfl]

/-- Witness for C3 on a fresh store: put `[1]` then get; put `[2]` then
`[3]` then get; delete then get. -/
theorem storage_put_get_delete_laws_witness :
    (([1] : Bytes) ≠ [] ∧ ([3] : Bytes) ≠ [] ∧
        ([107] : Bytes).length < 65536) ∧
      (VStore.get (VStore.put c3s0 [100] [107] [1] 5) [100] [107] = some [1] ∧
        VStore.get (VStore.put (VStore.put c3s0 [100] [107] [2] 5)
          [100] [107] [3] 6) [100] [107] = some [3] ∧
        VStore.get (VStore.del c3s0 [100] [107] 5) [100] [107] = none) := by
  refine ⟨⟨by decide, by decide, by decide⟩, ?_⟩
  obtain ⟨l1, l2, l3⟩ := storage_put_get_delete_laws
    ((Reach.init [65] 0 (by norm_num) (by norm_num)) : Reach [100] c3s0)
    [107] [1] [2] [3]
    (by norm_num) 5 5 6 (by norm_num) (by norm_num) (by norm_num)
    (by decide) (by decide) (by decide)
  exact ⟨l1 (by decide), l2 (by decide), l3⟩

/-- Counterexample for C3 as stated: putting the EMPTY value (which is
exactly the TOMBSTONE encoding) makes get return absent rather than the
stored value. -/
theorem storage_get_empty_value_cex :
    VStore.get (VStore.put c3s0 [100] [107] [] 5) [100] [107] = none ∧
      VStore.get (VStore.put c3s0 [100] [107] [] 5) [100] [107]
        ≠ some [] := by
  refine ⟨by decide, by decide⟩

/-- C2 (amended): for stored versions of the same user key whose HLC
encodings carry node ids of EQUAL length, the lexicographic order of
their data keys coincides with the HLC order, so the reverse scan of
the data keyspace yields those versions newest-first by HLC. -/
theorem scan_data_key_order_matches_hlc (ks k : Bytes) (h1 h2 : HLC)
    (hp1 : h1.physical < 2 ^ 64) (hl1 : h1.logical < 2 ^ 32)
    (hp2 : h2.physical < 2 ^ 64) (hl2 : h2.logical < 2 ^ 32)
    (hn : h1.node_id.length = h2.node_id.length) :
    bytesLt (KeyCodec.data_key ks k h1.encode)
        (KeyCodec.data_key ks k h2.encode)
      = hlcLt h1 h2 :=
  data_key_order_eq_hlc_order ks k hp1 hl1 hp2 hl2 hn

/-- Witness for C2 (amended) at two equal-node-length clocks. -/
theorem scan_data_key_order_matches_hlc_witness :
    ((5 : Nat) < 2 ^ 64 ∧ (0 : Nat) < 2 ^ 32 ∧
        ([65] : Bytes).length = ([67] : Bytes).length) ∧
      bytesLt (KeyCodec.data_key [100] [107] (HLC.encode ⟨5, 0, [65]⟩))
          (KeyCodec.data_key [100] [107] (HLC.encode ⟨9, 0, [67]⟩))
        = hlcLt ⟨5, 0, [65]⟩ ⟨9, 0, [67]⟩ :=
  ⟨⟨by norm_num, by norm_num, by decide⟩,
    scan_data_key_order_matches_hlc [100] [107] ⟨5, 0, [65]⟩ ⟨9, 0, [67]⟩
      (by norm_num) (by norm_num) (by norm_num) (by norm_num) (by decide)⟩

/-- Counterexample for C2 as stated: a version written by `apply_remote`
under node id `"BB"` (hlc length 14) and a NEWER version written
locally under node id `"A"` (hlc length 13) sort by the two-byte hlc
length field first, so the reverse scan yields the OLDER version first:
the parsed scan is `[c2r, c2new]` although `c2r < c2new` in HLC order. -/
theorem scan_not_hlc_descending_cex :
    c2scan = [some (c2r.encode, c2k), some (c2new.encode, c2k)] ∧
      hlcLt c2r c2new = true ∧
      (VStore.apply_remote c2s0 c2ks c2ik [9] 0).isSome = true := by
  refine ⟨by decide, by decide, by decide⟩

/-- C9: whenever `apply_remote` accepts the remote version (its write
path runs, changing the persisted meta), the hlc written into
`meta["hlc"]` is the DECODED REMOTE clock, and it is strictly below the
store's in-memory clock, which was just advanced by `tick_on_receive`. -/
theorem apply_remote_persists_remote_hlc {s s2 : Store} {ks ik v : Bytes}
    {now : Nat} {w : Option HLC}
    (h : VStore.apply_remote s ks ik v now = some (s2, w))
    (hacc : s2.meta ≠ s.meta) :
    ∃ rb uk r, KeyCodec.parse_index_key ks ik = some (rb, uk) ∧
      HLC.decode rb = some r ∧ s2.meta = some r ∧ w = some r ∧
      hlcLt r s2.hlc = true := by
  unfold VStore.apply_remote at h
  cases hpk : KeyCodec.parse_index_key ks ik with
  | none =>
    simp only [hpk, Option.some.injEq, Prod.mk.injEq] at h
    exact absurd (congrArg Store.meta h.1.symm) hacc
  | some p =>
    obtain ⟨rb, uk⟩ := p
    simp only [hpk] at h
    cases hdec : HLC.decode rb with
    | none =>
      simp only [hdec] at h
      cases h
    | some r =>
      simp only [hdec] at h
      cases hgl : VStore.getLatest
          { s with hlc := s.hlc.tick_on_receive r now } ks uk with
      | some kv =>
        simp only [hgl] at h
        cases h
      | none =>
        simp only [hgl, Option.some.injEq, Prod.mk.injEq] at h
        obtain ⟨hs2, hw⟩ := h
        subst hs2
        exact ⟨rb, uk, r, rfl, hdec, rfl, hw.symm,
          tickOnReceive_gt_remote s.hlc r now⟩

/-- Witness for C9: applying a remote version (node `"BB"`, physical 5)
to a fresh store persists the decoded remote clock, strictly below the
in-memory clock advanced by `tick_on_receive`. -/
theorem apply_remote_persists_remote_hlc_witness :
    (VStore.apply_remote c2s0 c2ks c2ik [9] 0 = some (c2s1, some c2r) ∧
        c2s1.meta ≠ c2s0.meta) ∧
      (∃ rb uk r, KeyCodec.parse_index_key c2ks c2ik = some (rb, uk) ∧
        HLC.decode rb = some r ∧ c2s1.meta = some r ∧
        (some c2r : Option HLC) = some r ∧ hlcLt r c2s1.hlc = true) :=
  ⟨⟨by decide, by decide⟩,
    @apply_remote_persists_remote_hlc c2s0 c2s1 c2ks c2ik [9] 0 (some c2r)
      (by decide) (by decide)⟩

/-- C5 (observed behavior at the failing input): a frame header
declaring a 2 MiB payload — above the configured 1 MiB
`max_message_size` but below the 4 MiB `max_buffer_size` — does NOT
close the connection; `data_received` checks the declared length
against `max_buffer_size` only, and the unread frame stays pending. -/
theorem protocol_oversize_frame_keeps_connection :
    (feedData maxBufferSizeDefault ⟨[], none, false, []⟩
        (toBE 4 2097152)).closed = false ∧
      (feedData maxBufferSizeDefault ⟨[], none, false, []⟩
        (toBE 4 2097152)).expected = some 2097152 ∧
      maxMessageSizeDefault < 2097152 :=
  ⟨by decide, by decide, by decide⟩

theorem lookupA_cons (n : String) (m : Membership)
    (t : List (String × Membership)) (k : String) :
    lookupA ((n, m) :: t) k = if n = k then some m else lookupA t k := by
  by_cases h : n = k
  · rw [if_pos h]
    unfold lookupA
    rw [List.find?_cons_of_pos _ (by simpa using h)]
    rfl
  · rw [if_neg h]
    unfold lookupA
    rw [List.find?_cons_of_neg _ (by simpa using h)]

theorem lookupA_append (l1 l2 : List (String × Membership)) (k : String) :
    lookupA (l1 ++ l2) k = (lookupA l1 k).or (lookupA l2 k) := by
  unfold lookupA
  rw [List.find?_append]
  cases l1.find? (fun e => decide (e.1 = k)) <;> rfl

theorem lookupA_map_replace_ne (l : List (String × Membership))
    (m : Membership) (k : String) (hk : k ≠ m.node_id) :
    lookupA (l.map (fun f => if f.1 = m.node_id then (m.node_id, m) else f)) k
      = lookupA l k := by
  induction l with
  | nil => rfl
  | cons e es ih =>
    obtain ⟨n, v⟩ := e
    simp only [List.map_cons]
    by_cases hn : n = m.node_id
    · rw [if_pos (by simpa using hn), lookupA_cons, lookupA_cons,
        if_neg (fun hEq => hk hEq.symm), if_neg (by rw [hn]; exact fun hEq => hk hEq.symm)]
      exact ih
    · rw [if_neg (by simpa using hn), lookupA_cons, lookupA_cons]
      by_cases hnk : n = k
      · rw [if_pos hnk, if_pos hnk]
      · rw [if_neg hnk, if_neg hnk]
        exact ih

theorem lookupA_map_replace_self (l : List (String × Membership))
    (m : Membership) (hany : l.any (fun f => decide (f.1 = m.node_id)) = true) :
    lookupA (l.map (fun f => if f.1 = m.node_id then (m.node_id, m) else f))
        m.node_id = some m := by
  induction l with
  | nil => cases hany
  | cons e es ih =>
    obtain ⟨n, v⟩ := e
    simp only [List.map_cons]
    by_cases hn : n = m.node_id
    · rw [if_pos (by simpa using hn), lookupA_cons, if_pos rfl]
    · rw [if_neg (by simpa using hn), lookupA_cons, if_neg hn]
      apply ih
      simp only [List.any_cons, Bool.or_eq_true] at hany
      rcases hany with h1 | h2
      · exact absurd (by simpa using h1) hn
      · exact h2

theorem lookupA_upsertA (l : List (String × Membership)) (m : Membership)
    (k : String) :
    lookupA (upsertA l m) k
      = if k = m.node_id then some m else lookupA l k := by
  unfold upsertA
  by_cases hany : l.any (fun f => decide (f.1 = m.node_id)) = true
  · rw [if_pos hany]
    by_cases hk : k = m.node_id
    · rw [if_pos hk, hk]
      exact lookupA_map_replace_self l m hany
    · rw [if_neg hk]
      exact lookupA_map_replace_ne l m k hk
  · rw [if_neg hany, lookupA_append]
    by_cases hk : k = m.node_id
    · rw [if_pos hk]
      have hnone : lookupA l k = none := by
        unfold lookupA
        rw [List.find?_eq_none.2]
        · rfl
        · intro f hf
          simp only [decide_eq_true_eq]
          intro hfe
          exact hany (List.any_eq_true.2 ⟨f, hf, by simp [hfe, hk]⟩)
      rw [hnone, lookupA_cons, if_pos hk.symm]
      rfl
    · rw [if_neg hk, lookupA_cons, if_neg (fun hEq => hk hEq.symm)]
      cases lookupA l k <;> rfl

theorem lookupA_eraseA (l : List (String × Membership)) (nid k : String) :
    lookupA (eraseA l nid) k = if k = nid then none else lookupA l k := by
  induction l with
  | nil => simp [eraseA, lookupA]
  | cons e es ih =>
    obtain ⟨n, v⟩ := e
    by_cases hn : n = nid
    · rw [show eraseA ((n, v) :: es) nid = eraseA es nid from by
        simp [eraseA, hn]]
      rw [ih, lookupA_cons]
      by_cases hk : k = nid
      · rw [if_pos hk, if_pos hk]
      · rw [if_neg hk, if_neg hk,
          if_neg (by rw [hn]; exact fun hEq => hk hEq.symm)]
    · rw [show eraseA ((n, v) :: es) nid = (n, v) :: eraseA es nid from by
        simp [eraseA, hn]]
      rw [lookupA_cons, ih, lookupA_cons]
      by_cases hnk : n = k
      · have hknid : ¬ k = nid := by rw [← hnk]; exact hn
        rw [if_pos hnk, if_neg hknid, if_pos hnk]
      · rw [if_neg hnk]
        by_cases hk : k = nid
        · rw [if_pos hk, if_pos hk]
        · rw [if_neg hk, if_neg hk, if_neg hnk]

theorem trackIncarnation_buckets (s : TableState) (i : Nat) :
    (trackIncarnation s i).buckets = s.buckets := by
  unfold trackIncarnation
  split_ifs <;> rfl

theorem trackIncarnation_localMeta (s : TableState) (i : Nat) :
    (trackIncarnation s i).localMeta = s.localMeta := by
  unfold trackIncarnation
  split_ifs <;> rfl

theorem trackIncarnation_delta (s : TableState) (i : Nat) :
    (trackIncarnation s i).delta = s.delta := by
  unfold trackIncarnation
  split_ifs <;> rfl

theorem refreshLocal_localMeta (s : TableState) :
    (refreshLocal s).localMeta = s.localMeta := by
  unfold refreshLocal
  dsimp only
  split_ifs <;> rfl

theorem refreshLocal_delta (s : TableState) :
    (refreshLocal s).delta = s.delta := by
  unfold refreshLocal
  dsimp only
  split_ifs <;> rfl

theorem refreshLocal_buckets_pres (s : TableState) (bid : String)
    (h : lookupA (s.buckets bid) s.localMeta.node_id = none) :
    (refreshLocal s).buckets bid = s.buckets bid := by
  unfold refreshLocal
  dsimp only
  by_cases hb : s.bucketFor s.localMeta.node_id = bid
  · rw [if_neg (by rw [hb, h]; simp)]
  · by_cases hc : (lookupA (s.buckets (s.bucketFor s.localMeta.node_id))
        s.localMeta.node_id).isSome = true
    · rw [if_pos hc]
      dsimp only
      rw [if_neg (fun hEq => hb hEq.symm)]
    · rw [if_neg hc]

theorem refreshLocal_lookup_none (s : TableState) (bid k : String)
    (h : lookupA (s.buckets bid) k = none) :
    lookupA ((refreshLocal s).buckets bid) k = none := by
  unfold refreshLocal
  dsimp only
  by_cases hc : (lookupA (s.buckets (s.bucketFor s.localMeta.node_id))
      s.localMeta.node_id).isSome = true
  · rw [if_pos hc]
    dsimp only
    by_cases hb : bid = s.bucketFor s.localMeta.node_id
    · rw [if_pos hb, lookupA_upsertA]
      by_cases hk : k = s.localMeta.node_id
      · rw [← hb, ← hk, h] at hc
        simp at hc
      · rw [if_neg hk]
        exact h
    · rw [if_neg hb]
      exact h
  · rw [if_neg hc]
    exact h

theorem syncIncarnation_localMeta_node (s : TableState) (ms : List Membership) :
    (syncIncarnation s ms).localMeta.node_id = s.localMeta.node_id := by
  unfold syncIncarnation
  dsimp only
  split_ifs with h1 h2
  · rfl
  · rw [refreshLocal_localMeta]
    dsimp only
    rw [trackIncarnation_localMeta]
  · rw [trackIncarnation_localMeta]

theorem syncIncarnation_delta (s : TableState) (ms : List Membership) :
    (syncIncarnation s ms).delta = s.delta := by
  unfold syncIncarnation
  dsimp only
  split_ifs with h1 h2
  · rfl
  · rw [refreshLocal_delta]
    dsimp only
    rw [trackIncarnation_delta]
  · rw [trackIncarnation_delta]

theorem syncIncarnation_buckets_pres (s : TableState) (ms : List Membership)
    (bid : String)
    (h : lookupA (s.buckets bid) s.localMeta.node_id = none) :
    (syncIncarnation s ms).buckets bid = s.buckets bid := by
  unfold syncIncarnation
  dsimp only
  split_ifs with h1 h2
  · rfl
  · rw [refreshLocal_buckets_pres]
    · dsimp only
      rw [trackIncarnation_buckets]
    · dsimp only
      rw [trackIncarnation_buckets, trackIncarnation_localMeta]
      exact h
  · rw [trackIncarnation_buckets]

theorem syncIncarnation_lookup_none (s : TableState) (ms : List Membership)
    (bid k : String) (h : lookupA (s.buckets bid) k = none) :
    lookupA ((syncIncarnation s ms).buckets bid) k = none := by
  unfold syncIncarnation
  dsimp only
  split_ifs with h1 h2
  · exact h
  · apply refreshLocal_lookup_none
    dsimp only
    rw [trackIncarnation_buckets]
    exact h
  · rw [trackIncarnation_buckets]
    exact h

theorem syncIncarnation_inc_le (s : TableState) (ms : List Membership) :
    (syncIncarnation s ms).localMeta.incarnation ≤
      max s.localMeta.incarnation
        ((ms.map Membership.incarnation).foldl max 0) := by
  unfold syncIncarnation
  dsimp only
  split_ifs with h1 h2
  · exact Nat.le_max_left _ _
  · rw [refreshLocal_localMeta]
    dsimp only
    exact Nat.le_max_right _ _
  · rw [trackIncarnation_localMeta]
    exact Nat.le_max_left _ _

/-- C1: merging a remote list holding one membership for node `n` at
epoch 2 into a bucket holding node `n` at epoch 3 (same node id, record
not logically expired, local node not `n`) leaves the bucket's
memberships unchanged and returns an empty diff
(`added = updated = removed = []`). -/
theorem merge_bucket_stale_epoch_noop (s : TableState) (bid n : String)
    (mL mR : Membership)
    (hb : s.buckets bid = [(n, mL)])
    (heL : mL.epoch = 3) (heR : mR.epoch = 2) (hnR : mR.node_id = n)
    (hexp : s.localMeta.incarnation ≤ mR.incarnation + s.delta)
    (hlm : s.localMeta.node_id ≠ n) :
    (mergeBucket s bid [mR]).1.buckets bid = s.buckets bid ∧
      (mergeBucket s bid [mR]).2.updated = [] ∧
      (mergeBucket s bid [mR]).2.added = [] ∧
      (mergeBucket s bid [mR]).2.removed = [] := by
  have hlknone : lookupA (s.buckets bid) s.localMeta.node_id = none := by
    rw [hb, lookupA_cons, if_neg (fun hEq => hlm hEq.symm)]
    rfl
  have hb1 : (syncIncarnation s [mR]).buckets bid = s.buckets bid :=
    syncIncarnation_buckets_pres s [mR] bid hlknone
  have hn1 : (syncIncarnation s [mR]).localMeta.node_id
      = s.localMeta.node_id := syncIncarnation_localMeta_node s [mR]
  have hd1 : (syncIncarnation s [mR]).delta = s.delta :=
    syncIncarnation_delta s [mR]
  have hi1 := syncIncarnation_inc_le s [mR]
  have hb2 : (trackIncarnation (syncIncarnation s [mR])
      mR.incarnation).buckets bid = s.buckets bid := by
    rw [trackIncarnation_buckets]
    exact hb1
  have hexp2 : logicallyExpired
      (trackIncarnation (syncIncarnation s [mR]) mR.incarnation) mR
      = false := by
    unfold logicallyExpired
    rw [trackIncarnation_localMeta, trackIncarnation_delta, hd1]
    have hfold : (([mR] : List Membership).map
        Membership.incarnation).foldl max 0 = max 0 mR.incarnation := rfl
    rw [hfold] at hi1
    simp only [decide_eq_false_iff_not, not_lt]
    omega
  have hlook : lookupA ((trackIncarnation (syncIncarnation s [mR])
      mR.incarnation).buckets bid) mR.node_id = some mL := by
    rw [hb2, hb, hnR, lookupA_cons, if_pos rfl]
  have hnew : mR.is_newer_than mL = false := by
    simp [Membership.is_newer_than, heR, heL]
  have hU : upsertBucket (syncIncarnation s [mR]) bid [mR]
      = (trackIncarnation (syncIncarnation s [mR]) mR.incarnation,
          [], []) := by
    unfold upsertBucket
    rw [List.foldl_cons, List.foldl_nil]
    unfold upsertStep
    dsimp only
    simp [hexp2, hlook, hnew]
  have hP : purgeBucket (trackIncarnation (syncIncarnation s [mR])
      mR.incarnation) bid [mR]
      = (trackIncarnation (syncIncarnation s [mR]) mR.incarnation, []) := by
    unfold purgeBucket
    dsimp only
    rw [hb2, hb]
    simp [hnR]
  unfold mergeBucket
  dsimp only
  rw [show (if ([mR] : List Membership).isEmpty = true then s
      else syncIncarnation s [mR]) = syncIncarnation s [mR] from rfl]
  rw [hU]
  dsimp only
  rw [hP]
  exact ⟨hb2, rfl, rfl, rfl⟩

theorem purgeFold_lookup_pres (bid k : String) (v : Membership)
    (nids : List String) (hk : ∀ nid ∈ nids, nid ≠ k) :
    ∀ acc : TableState × List Membership,
      lookupA (acc.1.buckets bid) k = some v →
      lookupA ((nids.foldl (purgeStep bid) acc).1.buckets bid) k = some v := by
  induction nids with
  | nil =>
    intro acc h
    exact h
  | cons nid rest ih =>
    intro acc h
    rw [List.foldl_cons]
    apply ih (fun x hx => hk x (List.mem_cons_of_mem _ hx))
    unfold purgeStep
    dsimp only
    cases hl : lookupA (acc.1.buckets bid) nid with
    | none =>
      simp only [hl]
      exact h
    | some l =>
      simp only [hl]
      by_cases h1 : l.is_remove_phase = true
      · by_cases h2 : logicallyExpired acc.1 l = true
        · rw [if_neg (by simp [h1]), if_pos h2]
          dsimp only
          rw [if_pos rfl, lookupA_eraseA,
            if_neg (fun hEq => (hk nid (List.mem_cons_self _ _)) hEq.symm)]
          exact h
        · rw [if_neg (by simp [h1]), if_neg h2]
          exact h
      · rw [if_pos h1]
        exact h

/-- C4 (amended): in a single-membership merge, a remote membership
that is not logically expired and has no local record is inserted into
the bucket and recorded in `added`.  (The unamended claim fails for
logically expired records outside a remove phase: the loop skips every
expired record, see the counterexample.) -/
theorem merge_bucket_adds_unknown_member (s : TableState) (bid : String)
    (m : Membership)
    (habs : lookupA (s.buckets bid) m.node_id = none)
    (hexp : s.localMeta.incarnation ≤ m.incarnation + s.delta) :
    lookupA ((mergeBucket s bid [m]).1.buckets bid) m.node_id = some m ∧
      (mergeBucket s bid [m]).2.added = [m] := by
  have habs1 : lookupA ((syncIncarnation s [m]).buckets bid) m.node_id
      = none := syncIncarnation_lookup_none s [m] bid m.node_id habs
  have hd1 : (syncIncarnation s [m]).delta = s.delta :=
    syncIncarnation_delta s [m]
  have hi1 := syncIncarnation_inc_le s [m]
  have hexp2 : logicallyExpired
      (trackIncarnation (syncIncarnation s [m]) m.incarnation) m = false := by
    unfold logicallyExpired
    rw [trackIncarnation_localMeta, trackIncarnation_delta, hd1]
    have hfold : (([m] : List Membership).map
        Membership.incarnation).foldl max 0 = max 0 m.incarnation := rfl
    rw [hfold] at hi1
    simp only [decide_eq_false_iff_not, not_lt]
    omega
  have hlook : lookupA ((trackIncarnation (syncIncarnation s [m])
      m.incarnation).buckets bid) m.node_id = none := by
    rw [trackIncarnation_buckets]
    exact habs1
  have hU : upsertBucket (syncIncarnation s [m]) bid [m]
      = ({ trackIncarnation (syncIncarnation s [m]) m.incarnation with
            buckets := fun b => if b = bid
              then upsertA ((trackIncarnation (syncIncarnation s [m])
                m.incarnation).buckets b) m
              else (trackIncarnation (syncIncarnation s [m])
                m.incarnation).buckets b
            views := viewsPut (trackIncarnation (syncIncarnation s [m])
              m.incarnation).views m.node_id bid },
          [m], []) := by
    unfold upsertBucket
    rw [List.foldl_cons, List.foldl_nil]
    unfold upsertStep
    dsimp only
    simp [hexp2, hlook]
  have hlook3 : lookupA (({ trackIncarnation (syncIncarnation s [m])
      m.incarnation with
        buckets := fun b => if b = bid
          then upsertA ((trackIncarnation (syncIncarnation s [m])
            m.incarnation).buckets b) m
          else (trackIncarnation (syncIncarnation s [m])
            m.incarnation).buckets b
        views := viewsPut (trackIncarnation (syncIncarnation s [m])
          m.incarnation).views m.node_id bid } : TableState).buckets bid)
      m.node_id = some m := by
    dsimp only
    rw [if_pos rfl, lookupA_upsertA, if_pos rfl]
  unfold mergeBucket
  dsimp only
  rw [show (if ([m] : List Membership).isEmpty = true then s
      else syncIncarnation s [m]) = syncIncarnation s [m] from rfl]
  rw [hU]
  dsimp only
  constructor
  · unfold purgeBucket
    dsimp only
    apply purgeFold_lookup_pres
    · intro nid hnid
      have hmem := List.mem_filter.1 hnid
      have hdec := hmem.2
      simp only [decide_eq_true_eq] at hdec
      intro hEq
      exact hdec (by rw [hEq]; exact List.mem_cons_self _ _)
    · exact hlook3
  · rfl

/-- Counterexample for C4 as stated: a remote record with no local
entry that is logically expired (local incarnation 10 > 3 + delta 5)
but NOT in a remove phase (`ready`) is skipped entirely — it is neither
inserted nor recorded in `added`. -/
theorem merge_bucket_expired_nonremove_skipped_cex :
    lookupA (c4state.buckets "0") c4m.node_id = none ∧
      c4m.is_remove_phase = false ∧
      (mergeBucket c4state "0" [c4m]).2.added = [] ∧
      lookupA ((mergeBucket c4state "0" [c4m]).1.buckets "0") c4m.node_id
        = none :=
  ⟨by decide, by decide, by decide, by decide⟩

/-- Witness for C4 (amended) at a non-expired unknown remote record. -/
theorem merge_bucket_adds_unknown_member_witness :
    (lookupA (c4state.buckets "0") c4madd.node_id = none ∧
        c4state.localMeta.incarnation ≤ c4madd.incarnation + c4state.delta) ∧
      (lookupA ((mergeBucket c4state "0" [c4madd]).1.buckets "0")
          c4madd.node_id = some c4madd ∧
        (mergeBucket c4state "0" [c4madd]).2.added = [c4madd]) :=
  ⟨⟨by decide, by decide⟩,
    merge_bucket_adds_unknown_member c4state "0" c4madd
      (by decide) (by decide)⟩

/-- Witness for C1 at the concrete table `c1state`. -/
theorem merge_bucket_stale_epoch_noop_witness :
    (c1state.buckets "0" = [("n1", c1mL)] ∧ c1mL.epoch = 3 ∧
        c1mR.epoch = 2 ∧ c1mR.node_id = "n1" ∧
        c1state.localMeta.incarnation ≤ c1mR.incarnation + c1state.delta ∧
        c1state.localMeta.node_id ≠ "n1") ∧
      ((mergeBucket c1state "0" [c1mR]).1.buckets "0"
          = c1state.buckets "0" ∧
        (mergeBucket c1state "0" [c1mR]).2.updated = [] ∧
        (mergeBucket c1state "0" [c1mR]).2.added = [] ∧
        (mergeBucket c1state "0" [c1mR]).2.removed = []) :=
  ⟨⟨by decide, by decide, by decide, by decide, by decide, by decide⟩,
    merge_bucket_stale_epoch_noop c1state "0" "n1" c1mL c1mR
      (by decide) (by decide) (by decide) (by decide) (by decide)
      (by decide)⟩

end Paravon
